import Mathlib

/-!
# Verification of the `vfhm` hash-map library against its specification

This file gives a shallow embedding, in Lean 4, of the Rust sources of the
`vfhm` crate (a "very fast hash map" for small fixed key sets), and proves or
refutes the specified properties of that code.

Conventions of the embedding:

* Rust `u64` / `usize` values are embedded as `Nat` with explicit reduction
  `% 2 ^ 64` wherever the Rust arithmetic wraps.
* Byte strings (`&str` / `&[u8]`) are embedded as `List Nat`, each entry a
  byte value.  All concrete strings used below are ASCII, where the `chars()`
  view and the `as_bytes()` view of a Rust `str` coincide.
* Fallible code is embedded with `Option` / `Except`; an embedded result of
  `none` / `.error` marks a Rust `panic!` (the comment at each definition
  says which panic it is).

The modules embedded are `src/v2.rs` (fixed-capacity seed-hash map),
`src/lib.rs` (the per-character weight-table map), and `src/builder.rs`
(the growing-mask parameter search) together with `src/params.rs`.
-/

/-- The modulus of 64-bit machine arithmetic (`u64` / `usize` both have 64
bits on the platforms the crate targets). -/
def U64 : Nat := 2 ^ 64

/-- Wrapping 64-bit subtraction `a - b` for `a < U64`. -/
def wsub64 (a b : Nat) : Nat := (a + (U64 - b % U64)) % U64

namespace V2

/-- From `src/v2.rs`: `const KEY_MASK: u64 = 0xff0;` -/
def KEY_MASK : Nat := 0xff0

/-- From `src/v2.rs`: `pub struct SeedHasher(u64, u64)` — field 0 is the running
hash accumulator, field 1 the seed. -/
structure SeedHasher where
  hash : Nat
  seed : Nat
deriving Repr, DecidableEq

/-- Rust `SeedHasher::new(seed)` returns `SeedHasher(1, seed)`. -/
def SeedHasher.new (seed : Nat) : SeedHasher := ⟨1, seed⟩

/-- Rust `Hasher::write` of `SeedHasher`: for each byte,
`hash = hash.wrapping_mul((*byte as u64) * seed)`.
The inner product `(*byte as u64) * seed` is embedded wrapping
(`% U64`), matching release-mode Rust. -/
def SeedHasher.write (h : SeedHasher) (bytes : List Nat) : SeedHasher :=
  ⟨bytes.foldl (fun hash b => hash * (b * h.seed % U64) % U64) h.hash, h.seed⟩

/-- Rust `Hasher::finish` of `SeedHasher` returns field 0. -/
def SeedHasher.finish (h : SeedHasher) : Nat := h.hash

/-- Rust `VfhmKey::key_hash` for `T: AsRef<str>`: feed the string to a fresh
`SeedHasher` via `str`'s `Hash` impl, then mask the result with `KEY_MASK`.
Rust's `impl Hash for str` calls `state.write(self.as_bytes())` followed by
`state.write_u8(0xff)` (a terminator byte), hence the second `write`. -/
def key_hash (key : List Nat) (seed : Nat) : Nat :=
  (((SeedHasher.new seed).write key).write [0xff]).finish &&& KEY_MASK

/-- The hash recurrence exactly as the spec's §4.1 words state it, for
comparison with the code's `key_hash`: "accumulator starts at 1; for each
byte `b`, `accumulator = accumulator * b (wrapping) - seed (wrapping)`;
final `index = (accumulator & mask) >> mask_offset`". -/
def spec_hash_recurrence (bytes : List Nat) (seed mask mask_offset : Nat) : Nat :=
  ((bytes.foldl (fun acc b => wsub64 (acc * b % U64) seed) 1) &&& mask) >>> mask_offset

/-- From `src/v2.rs`: `pub struct Vfhm<K, V>` with a slot vector, a seed and the
key-length bounds. -/
structure Vfhm (V : Type) where
  inner : List (Option (List Nat × V))
  seed : Nat
  key_bounds : Nat × Nat

/-- Rust `Vfhm::new(seed, key_bounds)`: the slot vector is built from
`[(); KEY_MASK as usize]`, i.e. it has exactly `0xff0 = 4080` entries,
all `None`. -/
def Vfhm.new (V : Type) (seed : Nat) (key_bounds : Nat × Nat) : Vfhm V :=
  ⟨List.replicate 4080 none, seed, key_bounds⟩

/-- Rust `VfhmKey::check_bounds` for `T: AsRef<str>`:
`*lower <= key_len && key_len <= *upper`. -/
def check_bounds (key : List Nat) (bounds : Nat × Nat) : Bool :=
  decide (bounds.1 ≤ key.length) && decide (key.length ≤ bounds.2)

/-- The hash-indexed part of `Vfhm::get`:
`inner.get(index).and_then(|bucket| bucket.iter().find(|(k, _)| &key == k)).map(|(_, value)| value)`.
`inner.get` is the checked slot access (`none` when the index is out of
range — no panic); the `find` on the `Option` iterator compares the query
with the stored key by full `PartialEq` equality. -/
def Vfhm.hash_lookup {V : Type} (m : Vfhm V) (key : List Nat) : Option V :=
  match m.inner.get? (key_hash key m.seed) with
  | some (some kv) => if key == kv.1 then some kv.2 else none
  | _ => none

/-- Rust `Vfhm::get`: reject the query via `check_bounds` first (early
`return None`), otherwise do the hash lookup. -/
def Vfhm.get {V : Type} (m : Vfhm V) (key : List Nat) : Option V :=
  if check_bounds key m.key_bounds then m.hash_lookup key else none

end V2

namespace V2

/-- C2 counterexample: the spec's reference recurrence
(`acc = acc * b - seed`, masked then shifted) disagrees with the code's
`key_hash` already on the one-byte string `"a"` (byte 97) with seed 1:
the code computes `1 * (97*1) * (255*1) & 0xff0 = 144` (the `0xff` string
terminator byte is hashed too, and the seed multiplies instead of being
subtracted), while the spec recurrence gives `(1*97 - 1) & 0xff0 = 96`. -/
theorem key_hash_differs_from_spec_recurrence :
    key_hash [97] 1 ≠ spec_hash_recurrence [97] 1 KEY_MASK 0 := by decide

/-- C2 (amended): the byte hasher of `src/v2.rs` satisfies this reference
recurrence: the accumulator starts at 1; for each byte `b` of the key and
then for the terminator byte `0xff` appended by `str`'s `Hash` impl, the
accumulator is updated to `accumulator * (b * seed)` with both
multiplications wrapping modulo `2^64`; the final index is
`accumulator & 0xff0` (no shift). -/
theorem key_hash_eq_recurrence (key : List Nat) (seed : Nat) :
    key_hash key seed =
      ((key ++ [0xff]).foldl (fun acc b => acc * (b * seed % U64) % U64) 1)
        &&& 0xff0 := by
  unfold key_hash SeedHasher.new SeedHasher.write SeedHasher.finish KEY_MASK
  rw [List.foldl_append]

/-- C7: the bounds filter of `Vfhm::get` in `src/v2.rs`: a query whose
byte length is strictly below the lower bound or strictly above the upper
bound is answered `none` before the hash function is invoked (the early
`return None`); a query whose length lies inside the inclusive range
proceeds to the hash lookup. -/
theorem get_bounds_filter {V : Type} (m : Vfhm V) (key : List Nat) :
    (key.length < m.key_bounds.1 ∨ m.key_bounds.2 < key.length →
      m.get key = none) ∧
    (m.key_bounds.1 ≤ key.length → key.length ≤ m.key_bounds.2 →
      m.get key = m.hash_lookup key) := by
  constructor
  · intro h
    have hcb : check_bounds key m.key_bounds = false := by
      unfold check_bounds
      rcases h with h | h
      · simp [Nat.not_le.mpr h]
      · simp [Nat.not_le.mpr h]
    simp [Vfhm.get, hcb]
  · intro h1 h2
    have hcb : check_bounds key m.key_bounds = true := by
      unfold check_bounds
      simp [h1, h2]
    simp [Vfhm.get, hcb]

/-- Witness for `get_bounds_filter`: on the table of the repo's day-names
test (`Vfhm::new(seed, (6, 9))`), the query `"mon"` (bytes 109 111 110,
length 3, below the lower bound 6) is answered `none`; and on a table with
bounds `(2, 9)` the same query is answered by the hash lookup. -/
theorem get_bounds_filter_witness :
    (Vfhm.new Nat 1 (6, 9)).get [109, 111, 110] = none ∧
      (Vfhm.new Nat 1 (2, 9)).get [109, 111, 110] =
        (Vfhm.new Nat 1 (2, 9)).hash_lookup [109, 111, 110] :=
  ⟨(get_bounds_filter (Vfhm.new Nat 1 (6, 9)) [109, 111, 110]).1
      (Or.inl (by decide)),
    (get_bounds_filter (Vfhm.new Nat 1 (2, 9)) [109, 111, 110]).2
      (by decide) (by decide)⟩

/-- C9: totality of the fixed-capacity `get`.  The slot vector built by
`Vfhm::new` has exactly 4080 entries; the masked index `hash & 0xff0` is
always at most 4080, and can actually reach 4080 (one past the last slot,
e.g. on the one-byte key 117 with seed 9); at any such index the checked
slot access `inner.get(index)` yields `None`, so `get` returns "not found"
instead of faulting. -/
theorem get_total :
    (∀ (V : Type) (seed : Nat) (b : Nat × Nat),
        (Vfhm.new V seed b).inner.length = 4080) ∧
    (∀ (key : List Nat) (seed : Nat), key_hash key seed ≤ 4080) ∧
    (key_hash [117] 9 = 4080) ∧
    (∀ (V : Type) (m : Vfhm V) (key : List Nat),
        m.inner.length = 4080 → key_hash key m.seed = 4080 →
        m.get key = none) := by
  refine ⟨fun V seed b => List.length_replicate 4080 none, fun key seed => ?_,
    by decide,
    fun V m key hlen hhash => ?_⟩
  · have h : key_hash key seed ≤ KEY_MASK := Nat.and_le_right
    simpa [KEY_MASK] using h
  · have hnone : m.inner.get? (key_hash key m.seed) = none := by
      rw [List.get?_eq_none, hhash, hlen]
    unfold Vfhm.get Vfhm.hash_lookup
    rw [hnone]
    simp

/-- Witness for `get_total`: the concrete map `Vfhm::new(9, (0, 9))` with
its 4080 `None` slots answers the in-bounds query `[117]` (which hashes to
index 4080) with `none`. -/
theorem get_total_witness : (Vfhm.new Nat 9 (0, 9)).get [117] = none :=
  get_total.2.2.2 Nat (Vfhm.new Nat 9 (0, 9)) [117]
    (List.length_replicate 4080 none) (by decide)

end V2

namespace Weight

/-- From `src/lib.rs`: `LutBuilder::LUT_SIZE = 96`. -/
def LUT_SIZE : Nat := 96

/-- From `src/lib.rs`: `VfhmKey::char_index(val) = val as usize - 32`.
(`Nat` subtraction truncates where the Rust `usize` subtraction would
underflow; the underflow case is guarded by `char_ok` at every use.) -/
def char_index (c : Nat) : Nat := c - 32

/-- The side condition under which `char_index c` neither underflows nor
indexes a weight table of length `n` out of range (Rust panics in either
case). -/
def char_ok (n c : Nat) : Bool := decide (32 ≤ c) && decide (char_index c < n)

/-- Rust `VfhmKey::key_index` for `T: AsRef<str>`: fold over the characters of
the key, adding `lut[char_index(c)]` to the accumulator (initial 0).
Result `none` embeds the Rust panic when `c as usize - 32` underflows or
falls outside the weight table. -/
def key_index (key : List Nat) (lut : List Nat) : Option Nat :=
  key.foldlM
    (fun agg c =>
      if char_ok lut.length c then some (agg + lut.getD (char_index c) 0)
      else none)
    0

/-- Rust `VfhmKey::is_same_key` for `T: AsRef<str>`: zip the query's bytes with
the stored key's bytes and require all zipped pairs equal.  Note `zip`
stops at the shorter of the two strings — no length comparison is made. -/
def is_same_key (query stored : List Nat) : Bool :=
  (query.zip stored).all fun ab => ab.1 == ab.2

/-- From `src/lib.rs`: `pub struct Lut` — the canonical key list plus the
96-entry weight table. -/
structure Lut where
  keys : List (List Nat)
  inner : List Nat
deriving Repr, DecidableEq

/-- Rust `LutBuilder::build`: counts letter reuse into a local `letter_reuse`
array, prints it, and then discards it — the returned `Lut` carries
`inner = [0; LUT_SIZE]`, all zeros.  The only lasting semantic effect of
the counting loop is its possible panic (`letter_reuse[c as usize - 32]`
underflows or indexes out of range for characters outside 32..127),
embedded here as the `char_ok` guard returning `none`. -/
def build (keys : List (List Nat)) : Option Lut :=
  if keys.all (fun k => k.all (char_ok LUT_SIZE)) then
    some ⟨keys, List.replicate LUT_SIZE 0⟩
  else none

/-- From `src/lib.rs`: `pub struct Vfhm<'lut, T, const SIZE: usize>`; `SIZE` is
embedded as the length of `inner`. -/
structure Vfhm (V : Type) where
  lut : Lut
  inner : List (Option V)

/-- Rust `Vfhm::new(lut)` with `SIZE` slots, all `None`. -/
def Vfhm.new (V : Type) (lut : Lut) (SIZE : Nat) : Vfhm V :=
  ⟨lut, List.replicate SIZE none⟩

/-- Rust `Vfhm::get`:
`if index < SIZE && key.is_same_key(self.lut.key(index)) { self.inner[index].as_ref() } else { None }`.
The outer `Option` embeds the Rust panics: `key_index` may panic, and
`lut.key(index)` (`self.keys[index]`) panics when `index` is not an index
of the canonical key list. -/
def Vfhm.get {V : Type} (m : Vfhm V) (key : List Nat) : Option (Option V) :=
  match key_index key m.lut.inner with
  | none => none
  | some index =>
    if index < m.inner.length then
      match m.lut.keys.get? index with
      | none => none
      | some stored =>
        some (if is_same_key key stored then m.inner.getD index none else none)
    else some none

/-- Rust `Vfhm::insert`: swap the new value into `self.inner[key.key_index(lut)]`
and return the previous occupant.  The outer `Option` embeds the Rust
panics (`key_index`, and the unchecked `inner[index]` slot access). -/
def Vfhm.insert {V : Type} (m : Vfhm V) (key : List Nat) (v : V) :
    Option (Vfhm V × Option V) :=
  match key_index key m.lut.inner with
  | none => none
  | some index =>
    if index < m.inner.length then
      some (⟨m.lut, m.inner.set index (some v)⟩, m.inner.getD index none)
    else none

/-- The table state of the C3 scenario: build a `Lut` from the single
canonical key `"ab"` (bytes 97 98), allocate a 1-slot table, and insert
`"ab" ↦ 1`. -/
def prefixBugMap : Option (Vfhm Nat) :=
  (build [[97, 98]]).bind fun lut =>
    ((Vfhm.new Nat lut 1).insert [97, 98] 1).map Prod.fst

end Weight

namespace Weight

/-- Helper: every entry of an all-zero weight table reads as 0. -/
theorem getD_replicate_zero : ∀ (n i : Nat), (List.replicate n (0 : Nat)).getD i 0 = 0 := by
  intro n
  induction n with
  | zero => intro i; simp [List.replicate]
  | succ n ih =>
    intro i
    cases i with
    | zero => simp [List.replicate]
    | succ i => simp [List.replicate, ih i]

/-- C3 (code bug): evaluation of `Vfhm::get` at the failing input.  The
table is reachable by the crate's own construction path
(`LutBuilder::build` on the canonical key `"ab"`, then `insert("ab", 1)`
into a 1-slot table); the query `"a"` (byte 97) is a strict prefix of the
stored key `"ab"`, yet `get` returns the occupant's value `1` instead of
"not found", because `is_same_key` zips the byte sequences and so never
compares the lengths. -/
theorem get_accepts_strict_prefix_query :
    prefixBugMap = some ⟨⟨[[97, 98]], List.replicate 96 0⟩, [some 1]⟩ ∧
      Vfhm.get (⟨⟨[[97, 98]], List.replicate 96 0⟩, [some 1]⟩ : Vfhm Nat) [97]
        = some (some 1) := by
  constructor
  · rfl
  · rfl

/-- C10: `LutBuilder::build` always returns a weight table whose 96
entries are all zero (the `letter_reuse` counts are computed and then
discarded), so immediately after `build` — before the caller mutates the
weights — `key_index` of every key whose characters lie in the supported
range `[32, 128)` is `some 0`: all keys collide at index 0. -/
theorem build_weights_all_zero :
    (∀ (keys : List (List Nat)) (lut : Lut),
        build keys = some lut → lut.inner = List.replicate 96 0) ∧
    (∀ (keys : List (List Nat)) (lut : Lut) (key : List Nat),
        build keys = some lut → (∀ c ∈ key, 32 ≤ c ∧ c < 128) →
        key_index key lut.inner = some 0) := by
  have hinner : ∀ (keys : List (List Nat)) (lut : Lut),
      build keys = some lut → lut.inner = List.replicate 96 0 := by
    intro keys lut h
    unfold build at h
    split at h
    · cases h; rfl
    · cases h
  refine ⟨hinner, fun keys lut key hb hc => ?_⟩
  rw [hinner keys lut hb]
  have haux : ∀ (k : List Nat), (∀ c ∈ k, 32 ≤ c ∧ c < 128) → ∀ (acc : Nat),
      k.foldlM
        (fun agg c =>
          if char_ok (List.replicate 96 (0 : Nat)).length c then
            some (agg + (List.replicate 96 (0 : Nat)).getD (char_index c) 0)
          else none)
        acc = some acc := by
    intro k
    induction k with
    | nil => intro _ acc; rfl
    | cons c rest ih =>
      intro hmem acc
      have hc := hmem c (List.mem_cons_self c rest)
      have hok : char_ok (List.replicate 96 (0 : Nat)).length c = true := by
        simp only [char_ok, char_index, List.length_replicate]
        refine (Bool.and_eq_true _ _).mpr ⟨decide_eq_true hc.1, decide_eq_true ?_⟩
        omega
      have hval : acc + (List.replicate 96 (0 : Nat)).getD (char_index c) 0 = acc := by
        rw [getD_replicate_zero, Nat.add_zero]
      rw [List.foldlM_cons, hok]
      simp only [if_true, hval, Option.bind_eq_bind, Option.some_bind]
      exact ih (fun c' hc' => hmem c' (List.mem_cons_of_mem c hc')) acc
  exact haux key hc 0

/-- Witness for `build_weights_all_zero`: building from the key set
`{"ab"}` yields the all-zero table, on which the unrelated in-range key
`"xy"` (bytes 120 121) gets index 0. -/
theorem build_weights_all_zero_witness :
    key_index [120, 121] (Lut.inner ⟨[[97, 98]], List.replicate 96 0⟩) = some 0 :=
  build_weights_all_zero.2 [[97, 98]] ⟨[[97, 98]], List.replicate 96 0⟩
    [120, 121] rfl (by decide)

end Weight

namespace Builder

/-- From `src/builder.rs` / `src/static.rs`: the four-field
`VfhmParams(seed, mask, mask_offset, bounds)` that `VfhmBuilder` destructures
and rebuilds (the three-field version in `src/params.rs` belongs to an older
revision of the crate). -/
structure VfhmParams where
  seed : Nat
  mask : Nat
  mask_offset : Nat
  bounds : Nat × Nat
deriving Repr, DecidableEq

/-- Rust `VfhmParams::mask_size` (spec §3, `src/params.rs`):
table size `= (mask >> mask_offset) + 1`. -/
def maskSize (p : VfhmParams) : Nat := (p.mask >>> p.mask_offset) + 1

/-- Modelled from the spec: the ByteHasher of spec §4.1.  The `Vfhm` map
that `src/builder.rs` drives through `Vfhm::with_params` / `insert` / `get`
(and its hasher) is not among the source files; only its callers are.  Per
the spec: "accumulator starts at 1; for each byte `b`,
`accumulator = accumulator * b (wrapping) - seed (wrapping)`; final
`index = (accumulator & mask) >> mask_offset`", on fixed-width (64-bit)
unsigned arithmetic. -/
def paramsHash (bytes : List Nat) (seed mask mask_offset : Nat) : Nat :=
  ((bytes.foldl (fun acc b => wsub64 (acc * b % U64) seed) 1) &&& mask)
    >>> mask_offset

/-- Modelled from the spec: the map the builder verifies against
(spec §4.4): a fixed array of optional (key, value) slots plus the frozen
parameters. -/
structure Vfhm (V : Type) where
  inner : List (Option (List Nat × V))
  params : VfhmParams

/-- Modelled from the spec: `Vfhm::with_params` — a table of `mask_size`
empty slots (spec §6: "`Map.withParams(params) -> Map` sized to
`mask_size = (mask >> mask_offset) + 1`"). -/
def Vfhm.withParams (V : Type) (p : VfhmParams) : Vfhm V :=
  ⟨List.replicate (maskSize p) none, p⟩

/-- The table index of a key under the current parameters. -/
def keyIndex (p : VfhmParams) (key : List Nat) : Nat :=
  paramsHash key p.seed p.mask p.mask_offset

/-- Modelled from the spec: the BoundsFilter check of spec §4.2 — a query
is admitted iff its byte length lies in the inclusive range. -/
def boundsOk (key : List Nat) (bounds : Nat × Nat) : Bool :=
  decide (bounds.1 ≤ key.length) && decide (key.length ≤ bounds.2)

/-- Modelled from the spec: `Vfhm::insert` (spec §4.4): "compute the index
(no bounds check); unconditionally replace the slot's occupant".  The
returned previous occupant is not used by the builder and is omitted. -/
def Vfhm.insert {V : Type} (m : Vfhm V) (key : List Nat) (v : V) : Vfhm V :=
  ⟨m.inner.set (keyIndex m.params key) (some (key, v)), m.params⟩

/-- Modelled from the spec: `Vfhm::get` (spec §4.4): "reject via
BoundsFilter; compute the index; if the slot is occupied and its stored
key is byte-equal to the query, return a reference to its value, else
return not found". -/
def Vfhm.get {V : Type} (m : Vfhm V) (key : List Nat) : Option V :=
  if boundsOk key m.params.bounds then
    match m.inner.get? (keyIndex m.params key) with
    | some (some kv) => if kv.1 == key then some kv.2 else none
    | _ => none
  else none

/-- Insert a list of (key, value) pairs left to right. -/
def insertAll {V : Type} (m : Vfhm V) (ps : List (List Nat × V)) : Vfhm V :=
  ps.foldl (fun m kv => m.insert kv.1 kv.2) m

/-- Rust `keys.iter().enumerate()` as the list of (key, running index) pairs,
with the key first as the builder inserts them. -/
def withIndices : List (List Nat) → Nat → List (List Nat × Nat)
  | [], _ => []
  | k :: rest, i => (k, i) :: withIndices rest (i + 1)

/-- One candidate table of `VfhmBuilder::find_params`: an empty map sized
to the current parameters with every key inserted under its enumeration
index. -/
def buildCandidate (keys : List (List Nat)) (p : VfhmParams) : Vfhm Nat :=
  insertAll (Vfhm.withParams Nat p) (withIndices keys 0)

/-- The verification re-read of `find_params`:
`keys.iter().enumerate().all(|(index, key)| map.get(key) == Some(&index))`. -/
def verifyParams (keys : List (List Nat)) (p : VfhmParams) : Bool :=
  (withIndices keys 0).all fun kv => (buildCandidate keys p).get kv.1 == some kv.2

/-- Here `isqrtDown m n` is the largest `j ≤ m` with `j * j ≤ n` (0 when none
exists) — a structurally recursive integer square root once `m ≥ √n`. -/
def isqrtDown : Nat → Nat → Nat
  | 0, _ => 0
  | m + 1, n => if (m + 1) * (m + 1) ≤ n then m + 1 else isqrtDown m n

/-- The integer square root (kernel-computable). -/
def isqrt (n : Nat) : Nat := isqrtDown n n

/-- Scanning `isqrtDown` finds `Nat.sqrt` as soon as the scan starts at or above it. -/
theorem isqrtDown_eq_sqrt : ∀ (m n : Nat), Nat.sqrt n ≤ m → isqrtDown m n = Nat.sqrt n := by
  intro m
  induction m with
  | zero => intro n h; exact (Nat.le_zero.mp h).symm
  | succ m ih =>
    intro n h
    unfold isqrtDown
    by_cases hle : (m + 1) * (m + 1) ≤ n
    · rw [if_pos hle]
      exact Nat.le_antisymm (Nat.le_sqrt.mpr hle) h
    · rw [if_neg hle]
      refine ih n ?_
      by_contra hc
      push_neg at hc
      exact hle (Nat.le_sqrt.mp hc)

/-- Our `isqrt` agrees with Mathlib's `Nat.sqrt`. -/
theorem isqrt_eq_sqrt (n : Nat) : isqrt n = Nat.sqrt n :=
  isqrtDown_eq_sqrt n n (Nat.sqrt_le_self n)

/-- The parameter-advance step of `VfhmBuilder::find_params`
(`src/builder.rs` lines 47–65).  Notes on the embedding:

* Rust computes the widening condition with
  `(1.0 + (mask >> mask_offset) as f64).sqrt() as usize`; this is embedded
  as the exact integer square root `isqrt (1 + (mask >>> mask_offset))`.
  On every state this step is applied to below,
  `1 + (mask >> mask_offset)` is a power of two not exceeding `2^64`,
  where the `f64` computation is exact (`2^k` is exactly representable for
  `k ≤ 53` and rounds to itself above, and `f64::sqrt` is correctly
  rounded), so the two agree.
* `mask <<= 1` wraps modulo `2^64` (`usize` shift-left discards high bits).
* In the branch `mask = (mask >> (mask_offset - 1)) | 1`, Rust's
  `mask_offset - 1` underflows when `mask_offset = 0` and panics; that
  case is embedded as `none`.
* `seed == mask >> mask_offset` is checked before `seed += 1`, so the
  increment never overflows a `usize` on a reachable state. -/
def advanceParams (p : VfhmParams) : Option VfhmParams :=
  if p.seed = p.mask >>> p.mask_offset then
    if p.mask_offset + isqrt (1 + (p.mask >>> p.mask_offset)) + 1 < 64 then
      some ⟨0, (p.mask <<< 1) % U64, p.mask_offset + 1, p.bounds⟩
    else if 1 ≤ p.mask_offset then
      some ⟨0, (p.mask >>> (p.mask_offset - 1)) ||| 1, 0, p.bounds⟩
    else none
  else some ⟨p.seed + 1, p.mask, p.mask_offset, p.bounds⟩

/-- The panic message of `VfhmBuilder::find_params` when `max_iterations`
is exceeded (`src/builder.rs` line 68). -/
def panicExhausted : String := "Max Interations passed no conflictless key found"

/-- The panic raised inside the advance step when `mask_offset - 1`
underflows. -/
def panicUnderflow : String := "attempt to subtract with overflow"

/-- Rust `VfhmBuilder::find_params(max_iterations)`: per remaining iteration,
build a candidate table, insert every key, verify by re-reading, and
return (`.ok`) the current parameters on success, else advance and
continue.  `.error` embeds the two possible panics. -/
def findParamsLoop (keys : List (List Nat)) :
    Nat → VfhmParams → Except String VfhmParams
  | 0, _ => .error panicExhausted
  | n + 1, p =>
    if verifyParams keys p then .ok p
    else
      match advanceParams p with
      | some p' => findParamsLoop keys n p'
      | none => .error panicUnderflow

/-- Rust `VfhmBuilder::set_keys`: fold the key lengths into the bounds, which
start from `(usize::MAX, 0)` (the `Default` impl). -/
def setKeysBounds (keys : List (List Nat)) : Nat × Nat :=
  keys.foldl (fun b k => (min b.1 k.length, max b.2 k.length)) (U64 - 1, 0)

/-- The whole builder flow of the benches:
`VfhmBuilder::default().set_keys(keys).find_params(max_iterations)` —
initial parameters `seed = 0`, `mask = 1`, `mask_offset = 0` with the
bounds computed by `set_keys`. -/
def findParams (keys : List (List Nat)) (maxIterations : Nat) :
    Except String VfhmParams :=
  findParamsLoop keys maxIterations ⟨0, 1, 0, setKeysBounds keys⟩

/-- Iterate the advance step (for the search-space invariants). -/
def iterateAdvance : Nat → VfhmParams → Option VfhmParams
  | 0, p => some p
  | n + 1, p => (advanceParams p).bind (iterateAdvance n)

/-- Shift helper: `(a * 2^off) >>> off = a`. -/
theorem shiftRight_mul_two_pow (a off : Nat) : (a * 2 ^ off) >>> off = a := by
  rw [Nat.shiftRight_eq_div_pow, Nat.mul_div_cancel _ (Nat.two_pow_pos off)]

/-- Shift helper: `(a * 2^off) >>> (off - 1) = 2 * a` for `off ≥ 1`. -/
theorem shiftRight_mul_two_pow_pred (a off : Nat) (h : 1 ≤ off) :
    (a * 2 ^ off) >>> (off - 1) = 2 * a := by
  rw [Nat.shiftRight_eq_div_pow]
  have hsplit : (2 : Nat) ^ off = 2 ^ (off - 1) * 2 := by
    rw [← Nat.pow_succ]
    congr 1
    omega
  have hre : a * 2 ^ off = 2 * a * 2 ^ (off - 1) := by rw [hsplit]; ring
  rw [hre, Nat.mul_div_cancel _ (Nat.two_pow_pos (off - 1))]

/-- Bit helper: setting the low bit of an even number adds one. -/
theorem two_mul_lor_one (m : Nat) : 2 * m ||| 1 = 2 * m + 1 := by
  apply Nat.eq_of_testBit_eq
  intro i
  cases i with
  | zero =>
    simp only [Nat.testBit_or, Nat.testBit_zero]
    have h1 : 2 * m % 2 = 0 := Nat.mul_mod_right 2 m
    have h2 : (2 * m + 1) % 2 = 1 := by omega
    simp [h1, h2]
  | succ i =>
    have h1 : 2 * m / 2 = m := by omega
    have h2 : (2 * m + 1) / 2 = m := by omega
    have h3 : (1 : Nat) / 2 = 0 := by decide
    rw [Nat.testBit_or, Nat.testBit_add_one, Nat.testBit_add_one,
      Nat.testBit_add_one, h1, h2, h3]
    simp [Nat.zero_testBit]

/-- Arithmetic helper: `(k - 1)² ≤ 2^k`. -/
theorem pred_sq_le_two_pow : ∀ k : Nat, (k - 1) * (k - 1) ≤ 2 ^ k := by
  intro k
  induction k with
  | zero => decide
  | succ k ih =>
    rcases Nat.lt_or_ge k 4 with h | h
    · interval_cases k <;> decide
    · obtain ⟨j, rfl⟩ : ∃ j, k = j + 1 := ⟨k - 1, by omega⟩
      simp only [Nat.add_sub_cancel] at ih ⊢
      have h3 : 3 ≤ j := by omega
      have h4 : 3 * j ≤ j * j := Nat.mul_le_mul_right j h3
      have hstep : (j + 1) * (j + 1) ≤ 2 * (j * j) := by nlinarith
      calc (j + 1) * (j + 1) ≤ 2 * (j * j) := hstep
        _ ≤ 2 * 2 ^ (j + 1) := by
            exact Nat.mul_le_mul_left 2 ih
        _ = 2 ^ (j + 1 + 1) := by rw [Nat.pow_succ]; ring

/-- Arithmetic helper: `k ≤ √(2^k) + 1`. -/
theorem le_sqrt_two_pow_add_one (k : Nat) : k ≤ Nat.sqrt (2 ^ k) + 1 := by
  have h : k - 1 ≤ Nat.sqrt (2 ^ k) := Nat.le_sqrt.mpr (pred_sq_le_two_pow k)
  omega

/-- The advance step on a window-shaped state with the widening condition
satisfied: the mask slides up one bit and the offset advances, keeping the
window value `2^k - 1`. -/
theorem advance_slide (k off : Nat) (b : Nat × Nat)
    (hc : off + Nat.sqrt (2 ^ k) + 1 < 64) :
    advanceParams ⟨2 ^ k - 1, (2 ^ k - 1) * 2 ^ off, off, b⟩ =
      some ⟨0, (2 ^ k - 1) * 2 ^ (off + 1), off + 1, b⟩ := by
  have hpow : (1 : Nat) ≤ 2 ^ k := Nat.one_le_two_pow
  have hsr : ((2 ^ k - 1) * 2 ^ off) >>> off = 2 ^ k - 1 := shiftRight_mul_two_pow _ _
  have h1 : 1 + (2 ^ k - 1) = 2 ^ k := by omega
  have hko : k + off + 1 ≤ 64 := by
    have := le_sqrt_two_pow_add_one k
    omega
  have hlt : (2 ^ k - 1) * 2 ^ (off + 1) < U64 := by
    calc (2 ^ k - 1) * 2 ^ (off + 1) < 2 ^ k * 2 ^ (off + 1) :=
          (Nat.mul_lt_mul_right (Nat.two_pow_pos (off + 1))).mpr (by omega)
      _ = 2 ^ (k + (off + 1)) := by rw [← Nat.pow_add]
      _ ≤ 2 ^ 64 := Nat.pow_le_pow_right (by omega) (by omega)
  have hshift : ((2 ^ k - 1) * 2 ^ off) <<< 1 = (2 ^ k - 1) * 2 ^ (off + 1) := by
    rw [Nat.shiftLeft_eq, Nat.pow_one, Nat.pow_succ]
    ring
  simp only [advanceParams]
  rw [hsr, if_pos rfl, h1, isqrt_eq_sqrt, if_pos hc, hshift, Nat.mod_eq_of_lt hlt]

/-- The advance step on a window-shaped state with the widening condition
failed and a positive offset: the mask widens by one bit at offset 0,
doubling the window. -/
theorem advance_widen (k off : Nat) (b : Nat × Nat) (hoff : 1 ≤ off)
    (hc : ¬(off + Nat.sqrt (2 ^ k) + 1 < 64)) :
    advanceParams ⟨2 ^ k - 1, (2 ^ k - 1) * 2 ^ off, off, b⟩ =
      some ⟨0, 2 ^ (k + 1) - 1, 0, b⟩ := by
  have hpow : (1 : Nat) ≤ 2 ^ k := Nat.one_le_two_pow
  have hsr : ((2 ^ k - 1) * 2 ^ off) >>> off = 2 ^ k - 1 := shiftRight_mul_two_pow _ _
  have h1 : 1 + (2 ^ k - 1) = 2 ^ k := by omega
  have hpow1 : (2 : Nat) ^ (k + 1) = 2 * 2 ^ k := by rw [Nat.pow_succ]; ring
  have hmask : ((2 ^ k - 1) * 2 ^ off) >>> (off - 1) ||| 1 = 2 ^ (k + 1) - 1 := by
    rw [shiftRight_mul_two_pow_pred _ _ hoff, two_mul_lor_one]
    omega
  simp only [advanceParams]
  rw [hsr, if_pos rfl, h1, isqrt_eq_sqrt, if_neg hc, if_pos hoff, hmask]

/-- The advance step on a window-shaped state with the widening condition
failed at offset 0: Rust underflows `mask_offset - 1` and panics. -/
theorem advance_panics_at_offset_zero (k : Nat) (b : Nat × Nat)
    (hc : ¬(Nat.sqrt (2 ^ k) + 1 < 64)) :
    advanceParams ⟨2 ^ k - 1, 2 ^ k - 1, 0, b⟩ = none := by
  have hpow : (1 : Nat) ≤ 2 ^ k := Nat.one_le_two_pow
  have h1 : 1 + (2 ^ k - 1) = 2 ^ k := by omega
  simp only [advanceParams]
  rw [Nat.shiftRight_zero, if_pos rfl, h1, isqrt_eq_sqrt,
    if_neg (show ¬(0 + Nat.sqrt (2 ^ k) + 1 < 64) by omega),
    if_neg (show ¬(1 : Nat) ≤ 0 by omega)]

/-- The advance step when the seed has not yet reached the window value:
only the seed is incremented. -/
theorem advance_seed_incr (p : VfhmParams) (h : ¬p.seed = p.mask >>> p.mask_offset) :
    advanceParams p = some ⟨p.seed + 1, p.mask, p.mask_offset, p.bounds⟩ := by
  obtain ⟨s, m, o, bd⟩ := p
  simp only at h
  simp only [advanceParams]
  rw [if_neg h]

/-- The invariant of the parameter search: the mask is a block of
contiguous one bits `(2^k - 1) << mask_offset`, within the 64-bit word. -/
def WindowInv (p : VfhmParams) : Prop :=
  ∃ k, k + p.mask_offset ≤ 64 ∧ p.mask = (2 ^ k - 1) * 2 ^ p.mask_offset

/-- The advance step preserves the window invariant. -/
theorem windowInv_preserved (p q : VfhmParams) (hp : WindowInv p)
    (hq : advanceParams p = some q) : WindowInv q := by
  obtain ⟨s, m, o, bd⟩ := p
  obtain ⟨k, hko, hmask⟩ := hp
  simp only at hko hmask
  subst hmask
  by_cases hseed : s = ((2 ^ k - 1) * 2 ^ o) >>> o
  · rw [shiftRight_mul_two_pow] at hseed
    subst hseed
    by_cases hc : o + Nat.sqrt (2 ^ k) + 1 < 64
    · rw [advance_slide k o bd hc] at hq
      cases hq
      exact ⟨k, by have := le_sqrt_two_pow_add_one k; simp only; omega, rfl⟩
    · by_cases hoff : 1 ≤ o
      · rw [advance_widen k o bd hoff hc] at hq
        cases hq
        exact ⟨k + 1, by simp only; omega, by simp only; rw [Nat.pow_zero, Nat.mul_one]⟩
      · have hoff0 : o = 0 := by omega
        subst hoff0
        rw [Nat.pow_zero, Nat.mul_one] at hq
        rw [advance_panics_at_offset_zero k bd (by omega)] at hq
        cases hq
  · rw [advance_seed_incr ⟨s, (2 ^ k - 1) * 2 ^ o, o, bd⟩
      (by simpa [shiftRight_mul_two_pow] using hseed)] at hq
    cases hq
    exact ⟨k, hko, rfl⟩

/-- Iterating the advance step preserves the window invariant. -/
theorem windowInv_iterate : ∀ (n : Nat) (p q : VfhmParams), WindowInv p →
    iterateAdvance n p = some q → WindowInv q := by
  intro n
  induction n with
  | zero =>
    intro p q hp hq
    cases hq
    exact hp
  | succ n ih =>
    intro p q hp hq
    unfold iterateAdvance at hq
    cases hadv : advanceParams p with
    | none => rw [hadv] at hq; cases hq
    | some p' =>
      rw [hadv] at hq
      exact ih p' q (windowInv_preserved p p' hp hadv) hq

/-- C5: table-size invariant of the parameter search.  Starting from the
initial parameters (`seed = 0`, `mask = 1`, `mask_offset = 0`, any bounds)
and applying the search's advance step any number of times (without
hitting the offset-zero panic), the table size
`(mask >> mask_offset) + 1` is always a power of two. -/
theorem search_table_size_power_of_two (n : Nat) (b : Nat × Nat) (p : VfhmParams)
    (h : iterateAdvance n ⟨0, 1, 0, b⟩ = some p) : ∃ k, maskSize p = 2 ^ k := by
  have hinit : WindowInv ⟨0, 1, 0, b⟩ := ⟨1, by simp only; omega, by norm_num⟩
  obtain ⟨k, hko, hmask⟩ := windowInv_iterate n _ p hinit h
  refine ⟨k, ?_⟩
  unfold maskSize
  rw [hmask, shiftRight_mul_two_pow]
  have hpow : (1 : Nat) ≤ 2 ^ k := Nat.one_le_two_pow
  omega

/-- Witness for `search_table_size_power_of_two`: two advance steps from
the initial parameters reach `(seed 0, mask 2, mask_offset 1)`, whose
table size is a power of two. -/
theorem search_table_size_power_of_two_witness :
    iterateAdvance 2 ⟨0, 1, 0, (0, 0)⟩ = some ⟨0, 2, 1, (0, 0)⟩ ∧
      ∃ k, maskSize ⟨0, 2, 1, (0, 0)⟩ = 2 ^ k :=
  ⟨by decide, search_table_size_power_of_two 2 (0, 0) ⟨0, 2, 1, (0, 0)⟩ (by decide)⟩

/-- C6 counterexample: from the initial parameters, the first time the
seed reaches the maximum index of the current table (state
`seed = 1, mask = 1, mask_offset = 0`; the 64-bit native width clearly
still permits growth), the advance step produces
`seed = 0, mask = 2, mask_offset = 1`: the table size
`(mask >> mask_offset) + 1` stays 2 instead of doubling — the step slides
the one-bit window upward, it does not widen the mask. -/
theorem advance_slides_instead_of_doubling :
    advanceParams ⟨1, 1, 0, (0, 0)⟩ = some ⟨0, 2, 1, (0, 0)⟩ ∧
      maskSize ⟨1, 1, 0, (0, 0)⟩ = 2 ∧ maskSize ⟨0, 2, 1, (0, 0)⟩ = 2 := by
  decide

/-- C6 (amended): the actual growth step on a window state
`seed = 2^k - 1 = mask >> mask_offset` (the seed exhausted at the current
window).  While `mask_offset + √(table size) + 1 < 64` the step resets the
seed, shifts the mask left one bit and advances `mask_offset`, keeping the
table size unchanged (the window slides); once that condition fails with
`mask_offset ≥ 1` the step widens: `mask := (mask >> (mask_offset-1)) | 1`
and `mask_offset := 0`, doubling the table size; if the condition fails at
`mask_offset = 0` the step panics on the underflowing `mask_offset - 1`. -/
theorem advance_growth_characterization (k off : Nat) (b : Nat × Nat) :
    (off + Nat.sqrt (2 ^ k) + 1 < 64 →
      advanceParams ⟨2 ^ k - 1, (2 ^ k - 1) * 2 ^ off, off, b⟩ =
          some ⟨0, (2 ^ k - 1) * 2 ^ (off + 1), off + 1, b⟩ ∧
        maskSize ⟨0, (2 ^ k - 1) * 2 ^ (off + 1), off + 1, b⟩ =
          maskSize ⟨2 ^ k - 1, (2 ^ k - 1) * 2 ^ off, off, b⟩) ∧
    (¬(off + Nat.sqrt (2 ^ k) + 1 < 64) → 1 ≤ off →
      advanceParams ⟨2 ^ k - 1, (2 ^ k - 1) * 2 ^ off, off, b⟩ =
          some ⟨0, 2 ^ (k + 1) - 1, 0, b⟩ ∧
        maskSize ⟨0, 2 ^ (k + 1) - 1, 0, b⟩ =
          2 * maskSize ⟨2 ^ k - 1, (2 ^ k - 1) * 2 ^ off, off, b⟩) ∧
    (¬(off + Nat.sqrt (2 ^ k) + 1 < 64) → off = 0 →
      advanceParams ⟨2 ^ k - 1, (2 ^ k - 1) * 2 ^ off, off, b⟩ = none) := by
  have hpow : (1 : Nat) ≤ 2 ^ k := Nat.one_le_two_pow
  have hsizeOld : maskSize ⟨2 ^ k - 1, (2 ^ k - 1) * 2 ^ off, off, b⟩ = 2 ^ k := by
    unfold maskSize
    simp only
    rw [shiftRight_mul_two_pow]
    omega
  have hsizeSlide : maskSize ⟨0, (2 ^ k - 1) * 2 ^ (off + 1), off + 1, b⟩ = 2 ^ k := by
    unfold maskSize
    simp only
    rw [shiftRight_mul_two_pow]
    omega
  have hsizeWiden : maskSize ⟨0, 2 ^ (k + 1) - 1, 0, b⟩ = 2 ^ (k + 1) := by
    have hpow1 : (1 : Nat) ≤ 2 ^ (k + 1) := Nat.one_le_two_pow
    unfold maskSize
    simp only
    rw [Nat.shiftRight_zero]
    omega
  refine ⟨fun hc => ⟨advance_slide k off b hc, ?_⟩,
    fun hc hoff => ⟨advance_widen k off b hoff hc, ?_⟩,
    fun hc hoff => ?_⟩
  · rw [hsizeSlide, hsizeOld]
  · rw [hsizeWiden, hsizeOld, Nat.pow_succ]
    ring
  · subst hoff
    rw [Nat.pow_zero, Nat.mul_one]
    exact advance_panics_at_offset_zero k b (by omega)

/-- Witness for `advance_growth_characterization`: at `k = 1`, `off = 0`
the sliding branch applies and keeps the table size at 2. -/
theorem advance_growth_characterization_witness :
    advanceParams ⟨2 ^ 1 - 1, (2 ^ 1 - 1) * 2 ^ 0, 0, (0, 0)⟩ =
        some ⟨0, (2 ^ 1 - 1) * 2 ^ (0 + 1), 0 + 1, (0, 0)⟩ ∧
      maskSize ⟨0, (2 ^ 1 - 1) * 2 ^ (0 + 1), 0 + 1, (0, 0)⟩ =
        maskSize ⟨2 ^ 1 - 1, (2 ^ 1 - 1) * 2 ^ 0, 0, (0, 0)⟩ :=
  (advance_growth_characterization 1 0 (0, 0)).1 (by
    have hs : Nat.sqrt (2 ^ 1) = 1 := by
      rw [← isqrt_eq_sqrt]
      decide
    omega)

/-- A successful `find_params` run returns parameters that pass the
round-trip verification (the loop only exits `.ok` through the check). -/
theorem findParamsLoop_ok_verify (keys : List (List Nat)) :
    ∀ (n : Nat) (q p : VfhmParams), findParamsLoop keys n q = .ok p →
      verifyParams keys p = true := by
  intro n
  induction n with
  | zero => intro q p h; exact Except.noConfusion h
  | succ n ih =>
    intro q p h
    unfold findParamsLoop at h
    by_cases hv : verifyParams keys q
    · rw [if_pos hv] at h
      cases h
      exact hv
    · rw [if_neg hv] at h
      cases hadv : advanceParams q with
      | none => rw [hadv] at h; exact Except.noConfusion h
      | some q' => rw [hadv] at h; exact ih q' p h

/-- Every failure of the `find_params` loop is one of the two panics. -/
theorem findParamsLoop_error_panics (keys : List (List Nat)) :
    ∀ (n : Nat) (q : VfhmParams) (e : String), findParamsLoop keys n q = .error e →
      e = panicExhausted ∨ e = panicUnderflow := by
  intro n
  induction n with
  | zero =>
    intro q e h
    cases h
    exact Or.inl rfl
  | succ n ih =>
    intro q e h
    unfold findParamsLoop at h
    by_cases hv : verifyParams keys q
    · rw [if_pos hv] at h
      exact Except.noConfusion h
    · rw [if_neg hv] at h
      cases hadv : advanceParams q with
      | none =>
        rw [hadv] at h
        cases h
        exact Or.inr rfl
      | some q' =>
        rw [hadv] at h
        exact ih q' e h

/-- An `insert` leaves the parameters untouched. -/
theorem insert_params {V : Type} (m : Vfhm V) (key : List Nat) (v : V) :
    (m.insert key v).params = m.params := rfl

/-- An `insertAll` leaves the parameters untouched. -/
theorem insertAll_params {V : Type} :
    ∀ (ps : List (List Nat × V)) (m : Vfhm V), (insertAll m ps).params = m.params := by
  intro ps
  induction ps with
  | nil => intro m; rfl
  | cons kv rest ih =>
    intro m
    exact ih (m.insert kv.1 kv.2)

/-- An `insertAll` leaves the slot count untouched. -/
theorem insertAll_length {V : Type} :
    ∀ (ps : List (List Nat × V)) (m : Vfhm V),
      (insertAll m ps).inner.length = m.inner.length := by
  intro ps
  induction ps with
  | nil => intro m; rfl
  | cons kv rest ih =>
    intro m
    rw [show insertAll m (kv :: rest) = insertAll (m.insert kv.1 kv.2) rest from rfl,
      ih]
    exact List.length_set m.inner _ _

/-- The table index of any key is within the table. -/
theorem keyIndex_lt_maskSize (p : VfhmParams) (key : List Nat) :
    keyIndex p key < maskSize p := by
  unfold keyIndex paramsHash maskSize
  have h1 : ((key.foldl (fun acc b => wsub64 (acc * b % U64) p.seed) 1) &&& p.mask)
      ≤ p.mask := Nat.and_le_right
  have h2 : ((key.foldl (fun acc b => wsub64 (acc * b % U64) p.seed) 1) &&& p.mask)
        >>> p.mask_offset ≤ p.mask >>> p.mask_offset := by
    rw [Nat.shiftRight_eq_div_pow, Nat.shiftRight_eq_div_pow]
    exact Nat.div_le_div_right h1
  omega

/-- The last pair of the list whose key lands on slot `j` (the slot's
occupant after inserting the list left to right). -/
def lastAt {V : Type} (p : VfhmParams) (j : Nat) :
    List (List Nat × V) → Option (List Nat × V)
  | [] => none
  | kv :: rest =>
    match lastAt p j rest with
    | some r => some r
    | none => if keyIndex p kv.1 = j then some kv else none

/-- Unfolding equation of `lastAt` on a cons cell. -/
theorem lastAt_cons {V : Type} (p : VfhmParams) (j : Nat) (kv : List Nat × V)
    (rest : List (List Nat × V)) :
    lastAt p j (kv :: rest) =
      match lastAt p j rest with
      | some r => some r
      | none => if keyIndex p kv.1 = j then some kv else none := rfl

/-- A `lastAt` hit is a member of the list and lands on slot `j`. -/
theorem lastAt_mem {V : Type} (p : VfhmParams) (j : Nat) :
    ∀ (ps : List (List Nat × V)) (kv : List Nat × V),
      lastAt p j ps = some kv → kv ∈ ps ∧ keyIndex p kv.1 = j := by
  intro ps
  induction ps with
  | nil => intro kv h; exact Option.noConfusion h
  | cons hd rest ih =>
    intro kv h
    unfold lastAt at h
    cases hrest : lastAt p j rest with
    | some r =>
      rw [hrest] at h
      cases h
      obtain ⟨hm, hj⟩ := ih kv hrest
      exact ⟨List.mem_cons_of_mem hd hm, hj⟩
    | none =>
      rw [hrest] at h
      by_cases hj : keyIndex p hd.1 = j
      · rw [if_pos hj] at h
        cases h
        exact ⟨List.mem_cons_self hd rest, hj⟩
      · rw [if_neg hj] at h
        exact Option.noConfusion h

/-- When `lastAt` misses, no member of the list lands on slot `j`. -/
theorem lastAt_none {V : Type} (p : VfhmParams) (j : Nat) :
    ∀ (ps : List (List Nat × V)), lastAt p j ps = none →
      ∀ kv ∈ ps, keyIndex p kv.1 ≠ j := by
  intro ps
  induction ps with
  | nil => intro _ kv hm; cases hm
  | cons hd rest ih =>
    intro h kv hm
    unfold lastAt at h
    cases hrest : lastAt p j rest with
    | some r => rw [hrest] at h; exact Option.noConfusion h
    | none =>
      rw [hrest] at h
      by_cases hj : keyIndex p hd.1 = j
      · rw [if_pos hj] at h
        exact Option.noConfusion h
      · rw [if_neg hj] at h
        rcases List.mem_cons.mp hm with hkv | hkv
        · subst hkv; exact hj
        · exact ih hrest kv hkv

/-- If exactly one member of the list lands on slot `j`, `lastAt` finds it. -/
theorem lastAt_unique {V : Type} (p : VfhmParams) (j : Nat) :
    ∀ (ps : List (List Nat × V)) (kv : List Nat × V), kv ∈ ps →
      keyIndex p kv.1 = j →
      (∀ kv' ∈ ps, keyIndex p kv'.1 = j → kv' = kv) →
      lastAt p j ps = some kv := by
  intro ps
  induction ps with
  | nil => intro kv hm; cases hm
  | cons hd rest ih =>
    intro kv hm hj huniq
    unfold lastAt
    cases hrest : lastAt p j rest with
    | some r =>
      obtain ⟨hrm, hrj⟩ := lastAt_mem p j rest r hrest
      rw [huniq r (List.mem_cons_of_mem hd hrm) hrj]
    | none =>
      rcases List.mem_cons.mp hm with hkv | hkv
      · subst hkv
        rw [if_pos hj]
      · exact absurd hj (lastAt_none p j rest hrest kv hkv)

/-- Helper: reading a slot of `replicate n none` in range gives
`some none`. -/
theorem get?_replicate_none {V : Type} :
    ∀ (n j : Nat), j < n →
      (List.replicate n (none : Option (List Nat × V))).get? j = some none := by
  intro n
  induction n with
  | zero => intro j h; omega
  | succ n ih =>
    intro j h
    cases j with
    | zero => rfl
    | succ j => exact ih j (by omega)

/-- Slot characterization of `insertAll`: after inserting a list of pairs
into any table (with in-range indices), slot `j` holds the last inserted
pair whose index is `j`, or its original content. -/
theorem insertAll_get? {V : Type} (p : VfhmParams) :
    ∀ (ps : List (List Nat × V)) (m : Vfhm V) (j : Nat), m.params = p →
      m.inner.length = maskSize p →
      (insertAll m ps).inner.get? j =
        match lastAt p j ps with
        | some kv => some (some kv)
        | none => m.inner.get? j := by
  intro ps
  induction ps with
  | nil => intro m j _ _; rfl
  | cons kv rest ih =>
    intro m j hp hlen
    rw [show insertAll m (kv :: rest) = insertAll (m.insert kv.1 kv.2) rest from rfl]
    rw [ih (m.insert kv.1 kv.2) j (by rw [insert_params, hp])
      (by rw [show (m.insert kv.1 kv.2).inner = m.inner.set (keyIndex m.params kv.1) (some (kv.1, kv.2)) from rfl, List.length_set, hlen])]
    rw [lastAt_cons]
    cases hrest : lastAt p j rest with
    | some r => rfl
    | none =>
      by_cases hj : keyIndex p kv.1 = j
      · rw [if_pos hj]
        show (m.insert kv.1 kv.2).inner.get? j = some (some kv)
        have hidx : keyIndex m.params kv.1 = j := by rw [hp, hj]
        have hjlt : j < m.inner.length := by
          rw [hlen, ← hj, ← hp]
          exact keyIndex_lt_maskSize m.params kv.1
        rw [show (m.insert kv.1 kv.2).inner = m.inner.set (keyIndex m.params kv.1) (some (kv.1, kv.2)) from rfl,
          hidx]
        exact List.get?_set_eq_of_lt _ (by omega)
      · rw [if_neg hj]
        show (m.insert kv.1 kv.2).inner.get? j = m.inner.get? j
        have hidx : keyIndex m.params kv.1 ≠ j := by rw [hp]; exact hj
        rw [show (m.insert kv.1 kv.2).inner = m.inner.set (keyIndex m.params kv.1) (some (kv.1, kv.2)) from rfl]
        exact List.get?_set_ne _ _ hidx

/-- Slot characterization of a table populated from empty: slot `j` holds
exactly the last inserted pair landing on `j` (or nothing). -/
theorem candidate_get? {V : Type} (p : VfhmParams) (ps : List (List Nat × V))
    (j : Nat) (hj : j < maskSize p) :
    (insertAll (Vfhm.withParams V p) ps).inner.get? j = some (lastAt p j ps) := by
  rw [insertAll_get? p ps (Vfhm.withParams V p) j rfl (List.length_replicate _ _)]
  cases h : lastAt p j ps with
  | some kv => rfl
  | none => exact get?_replicate_none _ j hj

/-- Inversion of the spec-modelled `get`: it returns `some v` exactly when
the query passes the bounds filter and its slot holds the pair
`(query, v)` — in particular the stored key is byte-equal to the query. -/
theorem get_eq_some_iff {V : Type} (m : Vfhm V) (key : List Nat) (v : V) :
    m.get key = some v ↔
      boundsOk key m.params.bounds = true ∧
        m.inner.get? (keyIndex m.params key) = some (some (key, v)) := by
  unfold Vfhm.get
  constructor
  · intro h
    by_cases hb : boundsOk key m.params.bounds
    · rw [if_pos hb] at h
      refine ⟨hb, ?_⟩
      cases hg : m.inner.get? (keyIndex m.params key) with
      | none => rw [hg] at h; exact Option.noConfusion h
      | some bucket =>
        rw [hg] at h
        cases bucket with
        | none => exact Option.noConfusion h
        | some kv =>
          obtain ⟨k1, v1⟩ := kv
          have h' : (if k1 == key then some v1 else none) = some v := h
          by_cases hk : k1 == key
          · rw [if_pos hk] at h'
            rw [eq_of_beq hk, Option.some.inj h']
          · rw [if_neg hk] at h'
            exact Option.noConfusion h'
    · rw [if_neg hb] at h
      exact Option.noConfusion h
  · rintro ⟨hb, hg⟩
    rw [if_pos hb, hg]
    show (if key == key then some v else none) = some v
    rw [if_pos (by exact beq_self_eq_true key)]

/-- The pair `(keys[i], start + i)` occurs in the enumeration. -/
theorem withIndices_get_mem : ∀ (keys : List (List Nat)) (start i : Nat)
    (h : i < keys.length), (keys.get ⟨i, h⟩, start + i) ∈ withIndices keys start := by
  intro keys
  induction keys with
  | nil => intro start i h; exact absurd h (by simp)
  | cons k rest ih =>
    intro start i h
    cases i with
    | zero =>
      rw [Nat.add_zero]
      exact List.mem_cons_self _ _
    | succ i =>
      have hm := ih (start + 1) i (by simp at h; omega)
      rw [show start + (i + 1) = start + 1 + i by omega]
      exact List.mem_cons_of_mem _ hm

/-- Every member of the enumeration is `(keys[i], start + i)` for some
position `i`. -/
theorem withIndices_mem_spec : ∀ (keys : List (List Nat)) (start : Nat)
    (kv : List Nat × Nat), kv ∈ withIndices keys start →
      ∃ i, ∃ h : i < keys.length, kv = (keys.get ⟨i, h⟩, start + i) := by
  intro keys
  induction keys with
  | nil => intro start kv hm; cases hm
  | cons k rest ih =>
    intro start kv hm
    rcases List.mem_cons.mp hm with h | h
    · exact ⟨0, by simp, by simpa using h⟩
    · obtain ⟨i, hi, heq⟩ := ih (start + 1) kv h
      refine ⟨i + 1, by simp; omega, ?_⟩
      rw [heq]
      rw [show start + (i + 1) = start + 1 + i by omega]
      rfl

/-- The pair `(l1[i], l2[i])` occurs in the zip. -/
theorem zip_get_mem {V : Type} : ∀ (l1 : List (List Nat)) (l2 : List V) (i : Nat)
    (h1 : i < l1.length) (h2 : i < l2.length),
    (l1.get ⟨i, h1⟩, l2.get ⟨i, h2⟩) ∈ l1.zip l2 := by
  intro l1
  induction l1 with
  | nil => intro l2 i h1 h2; exact absurd h1 (by simp)
  | cons a l1 ih =>
    intro l2 i h1 h2
    cases l2 with
    | nil => exact absurd h2 (by simp)
    | cons b l2 =>
      rw [List.zip_cons_cons]
      cases i with
      | zero => exact List.mem_cons_self _ _
      | succ i =>
        exact List.mem_cons_of_mem _ (ih l2 i (by simp at h1; omega) (by simp at h2; omega))

/-- Every member of the zip is `(l1[i], l2[i])` for some position `i`. -/
theorem zip_mem_spec {V : Type} : ∀ (l1 : List (List Nat)) (l2 : List V)
    (kv : List Nat × V), kv ∈ l1.zip l2 →
      ∃ i, ∃ (h1 : i < l1.length), ∃ (h2 : i < l2.length),
        kv = (l1.get ⟨i, h1⟩, l2.get ⟨i, h2⟩) := by
  intro l1
  induction l1 with
  | nil => intro l2 kv hm; rw [List.zip_nil_left] at hm; cases hm
  | cons a l1 ih =>
    intro l2 kv hm
    cases l2 with
    | nil => rw [List.zip_nil_right] at hm; cases hm
    | cons b l2 =>
      rw [List.zip_cons_cons] at hm
      rcases List.mem_cons.mp hm with h | h
      · exact ⟨0, by simp, by simp, h⟩
      · obtain ⟨i, h1, h2, heq⟩ := ih l2 kv h
        exact ⟨i + 1, by simp; omega, by simp; omega, heq⟩

/-- Passing the verification means every enumerated key reads back its
enumeration index. -/
theorem verify_spec (keys : List (List Nat)) (p : VfhmParams)
    (h : verifyParams keys p = true) :
    ∀ kv ∈ withIndices keys 0, (buildCandidate keys p).get kv.1 = some kv.2 := by
  intro kv hm
  have hall := List.all_eq_true.mp h kv hm
  exact eq_of_beq (by exact hall)

/-- C1 (amended): success postcondition of `find_params`.  If the
parameter search returns (`.ok`) on a key set with unique entries, then
under the returned parameters inserting every key with any assigned value
and reading each key back yields exactly that key's value; when the search
does not succeed it panics (the exhaustion panic, or the underflow panic
inside the advance step) rather than returning an `Exhausted` value. -/
theorem find_params_success_roundtrip {V : Type} (keys : List (List Nat))
    (vs : List V) (budget : Nat) (p : VfhmParams) (hnd : keys.Nodup)
    (hlen : vs.length = keys.length) :
    (findParams keys budget = .ok p →
      ∀ (i : Nat) (hi : i < keys.length),
        (insertAll (Vfhm.withParams V p) (keys.zip vs)).get (keys.get ⟨i, hi⟩) =
          some (vs.get ⟨i, by omega⟩)) ∧
    (∀ e, findParams keys budget = .error e →
      e = panicExhausted ∨ e = panicUnderflow) := by
  constructor
  · intro hok i hi
    have hverify : verifyParams keys p = true :=
      findParamsLoop_ok_verify keys budget _ p hok
    have hget := verify_spec keys p hverify
    have hparams : (buildCandidate keys p).params = p := insertAll_params _ _
    have hslot : ∀ (j : Nat) (hj : j < keys.length),
        lastAt p (keyIndex p (keys.get ⟨j, hj⟩)) (withIndices keys 0) =
          some (keys.get ⟨j, hj⟩, j) := by
      intro j hj
      have hmem := withIndices_get_mem keys 0 j hj
      have hg : (buildCandidate keys p).get (keys.get ⟨j, hj⟩) = some (0 + j) :=
        hget _ hmem
      rw [get_eq_some_iff, hparams] at hg
      obtain ⟨hb, hslot'⟩ := hg
      rw [show buildCandidate keys p =
            insertAll (Vfhm.withParams Nat p) (withIndices keys 0) from rfl,
        candidate_get? p _ _ (keyIndex_lt_maskSize p _)] at hslot'
      have h0 := Option.some.inj hslot'
      rw [h0]
      rw [Nat.zero_add]
    have hinj : ∀ (i1 i2 : Nat) (h1 : i1 < keys.length) (h2 : i2 < keys.length),
        keyIndex p (keys.get ⟨i1, h1⟩) = keyIndex p (keys.get ⟨i2, h2⟩) →
          i1 = i2 := by
      intro i1 i2 h1 h2 heq
      have e1 := hslot i1 h1
      have e2 := hslot i2 h2
      rw [heq] at e1
      have := Option.some.inj (e1.symm.trans e2)
      exact congrArg Prod.snd this
    have hmem_i := withIndices_get_mem keys 0 i hi
    have hg_i : (buildCandidate keys p).get (keys.get ⟨i, hi⟩) = some (0 + i) :=
      hget _ hmem_i
    rw [get_eq_some_iff, hparams] at hg_i
    obtain ⟨hb_i, _⟩ := hg_i
    rw [get_eq_some_iff,
      show (insertAll (Vfhm.withParams V p) (keys.zip vs)).params = p from
        insertAll_params _ _]
    refine ⟨hb_i, ?_⟩
    rw [candidate_get? p _ _ (keyIndex_lt_maskSize p _)]
    have hlast : lastAt p (keyIndex p (keys.get ⟨i, hi⟩)) (keys.zip vs) =
        some (keys.get ⟨i, hi⟩, vs.get ⟨i, by omega⟩) := by
      apply lastAt_unique
      · exact zip_get_mem keys vs i hi (by omega)
      · rfl
      · intro kv' hkv' hjkv'
        obtain ⟨i', h1', h2', hkv'eq⟩ := zip_mem_spec keys vs kv' hkv'
        subst hkv'eq
        have hii : i' = i := hinj i' i h1' hi hjkv'
        subst hii
        rfl
    rw [hlast]
  · intro e he
    exact findParamsLoop_error_panics keys budget _ e he

/-- Witness for `find_params_success_roundtrip`: the builder flow on the
single key `"ab"` with one iteration succeeds with the initial parameters,
and inserting `"ab" ↦ 5` under them round-trips. -/
theorem find_params_success_roundtrip_witness :
    (insertAll (Vfhm.withParams Nat ⟨0, 1, 0, (2, 2)⟩)
        ([[97, 98]].zip [5])).get [97, 98] = some 5 :=
  (find_params_success_roundtrip (V := Nat) [[97, 98]] [5] 1 ⟨0, 1, 0, (2, 2)⟩
    (by decide) rfl).1 rfl 0 (by decide)

/-- C1 counterexample: on the (unique-entry) key set `{"c"}` with budget
0 the search does not succeed, and what it does is panic
("Max Interations passed no conflictless key found") — embedded as
`.error` — not return an `Exhausted` value: the crate defines no
`Exhausted` value at all and `find_params` has return type `&mut Self`. -/
theorem find_params_no_exhausted_value :
    findParams [[99]] 0 = .error panicExhausted := rfl

/-- C4 (amended): exhausting `max_iterations` makes `find_params` panic
(it cannot signal failure as a value — its Rust return type is
`&mut Self`); construction never silently yields an unverified table:
whenever `find_params` does return parameters, the round-trip verification
over the key set holds for them. -/
theorem find_params_never_unverified (keys : List (List Nat)) (budget : Nat) :
    (∀ p, findParams keys budget = .ok p → verifyParams keys p = true) ∧
      findParams keys 0 = .error panicExhausted :=
  ⟨fun p h => findParamsLoop_ok_verify keys budget _ p h, rfl⟩

/-- Witness for `find_params_never_unverified`: the key set `{"a"}` with
budget 1 succeeds, and the returned parameters verify. -/
theorem find_params_never_unverified_witness :
    findParams [[97]] 1 = .ok ⟨0, 1, 0, (1, 1)⟩ ∧
      verifyParams [[97]] ⟨0, 1, 0, (1, 1)⟩ = true :=
  ⟨rfl, (find_params_never_unverified [[97]] 1).1 ⟨0, 1, 0, (1, 1)⟩ rfl⟩

/-- C4 counterexample: on the duplicate key set `{"a", "a"}` (which can
never verify) with budget 5, the search exhausts its iterations and
panics — embedded as `.error` with the panic message — instead of
returning an `Exhausted` value to the caller. -/
theorem find_params_faults_on_exhaustion :
    findParams [[97], [97]] 5 = .error panicExhausted := rfl

/-- C8 (amended): with `max_iterations = 0` the loop body never runs, so
`find_params` panics with the exhaustion message for every key set —
including key sets already collision-free under the initial parameters
(the verification only happens inside an iteration).  A single-key set
needs `max_iterations = 1` to succeed, and then returns the initial
parameters with the bounds of `set_keys`. -/
theorem zero_budget_always_panics :
    (∀ keys : List (List Nat), findParams keys 0 = .error panicExhausted) ∧
      ∀ k : List Nat, findParams [k] 1 = .ok ⟨0, 1, 0, setKeysBounds [k]⟩ := by
  refine ⟨fun keys => rfl, fun k => ?_⟩
  have hp0 : verifyParams [k] ⟨0, 1, 0, setKeysBounds [k]⟩ = true := by
    set p0 : VfhmParams := ⟨0, 1, 0, setKeysBounds [k]⟩ with hp0def
    have hb : boundsOk k p0.bounds = true := by
      have hfold : p0.bounds = (min (U64 - 1) k.length, max 0 k.length) := rfl
      rw [hfold]
      unfold boundsOk
      rw [Bool.and_eq_true]
      exact ⟨decide_eq_true (Nat.min_le_right _ _),
        decide_eq_true (Nat.le_max_right _ _)⟩
    have hslot : lastAt p0 (keyIndex p0 k) [(k, (0 : Nat))] = some (k, 0) := by
      rw [lastAt_cons]
      show (if keyIndex p0 k = keyIndex p0 k then some (k, 0) else none) = some (k, 0)
      rw [if_pos rfl]
    have hget : (buildCandidate [k] p0).get k = some 0 := by
      rw [get_eq_some_iff,
        show (buildCandidate [k] p0).params = p0 from insertAll_params _ _]
      refine ⟨hb, ?_⟩
      show (insertAll (Vfhm.withParams Nat p0) [(k, 0)]).inner.get?
          (keyIndex p0 k) = some (some (k, 0))
      rw [candidate_get? p0 _ _ (keyIndex_lt_maskSize p0 _), hslot]
    show ((buildCandidate [k] p0).get k == some 0 && true) = true
    rw [hget]
    rfl
  unfold findParams findParamsLoop
  rw [if_pos hp0]

/-- C8 counterexample: the single-key set `{"x"}` is already
collision-free under the initial parameters (budget 1 succeeds), yet
construction with `max_iterations = 0` still fails — with a panic, not a
returned `Exhausted` — because the success check never runs. -/
theorem zero_budget_single_key_panics :
    findParams [[120]] 0 = .error panicExhausted ∧
      findParams [[120]] 1 = .ok ⟨0, 1, 0, (1, 1)⟩ := ⟨rfl, rfl⟩

end Builder
